import Mathlib

/-!
Verification of the tic-tac-toe backend game logic.

The board is the 9-element string array used by the source
(`src/services/gameEngine.ts`): a cell holds `"X"`, `"O"`, or the empty
string for a free cell.  JS numbers that are used as move counters or
positions are modelled as `Int`; wall-clock quantities and fractional
second counts are modelled as `ℚ`.
-/

/-- Cell lookup: JS array indexing, with an out-of-range read behaving as an
empty (falsy) cell. -/
def cellAt (board : List String) (i : Nat) : String := board.getD i ""

/-- The eight winning lines, in the order of `GameEngine.winningLines`:
rows, then columns, then diagonals. -/
def winningLines : List (Nat × Nat × Nat) :=
  [(0, 1, 2), (3, 4, 5), (6, 7, 8), (0, 3, 6), (1, 4, 7), (2, 5, 8), (0, 4, 8), (2, 4, 6)]

/-- The per-line test of `GameEngine.checkWinner`:
`board[a] && board[a] === board[b] && board[a] === board[c]`. -/
def lineWins (board : List String) (l : Nat × Nat × Nat) : Bool :=
  cellAt board l.1 != "" && cellAt board l.1 == cellAt board l.2.1 &&
    cellAt board l.1 == cellAt board l.2.2

/-- Embedding of `GameEngine.checkWinner`: the occupying symbol of the first
winning line whose three cells are non-empty and identical, else `none`. -/
def checkWinner (board : List String) : Option String :=
  (winningLines.find? (lineWins board)).map (fun l => cellAt board l.1)

/-- Embedding of `GameEngine.getWinningLine`: same search as `checkWinner`,
returning the line itself. -/
def getWinningLine (board : List String) : Option (Nat × Nat × Nat) :=
  winningLines.find? (lineWins board)

/-- Embedding of `GameEngine.isDraw`: every cell occupied and no winner. -/
def isDraw (board : List String) : Bool :=
  board.all (fun c => c != "") && (checkWinner board).isNone

/-- Embedding of `GameEngine.getAvailableMoves`: indices of empty cells in
ascending order.  (The source maps occupied cells to the sentinel -1 and then
filters the sentinel out, which keeps exactly the indices of empty cells.) -/
def getAvailableMoves (board : List String) : List Nat :=
  board.enum.filterMap (fun p => if p.2 == "" then some p.1 else none)

/-- Embedding of `GameEngine.applyMove`: `none` models `{valid: false}`. -/
def applyMove (board : List String) (position : Int) (player : String) :
    Option (List String) :=
  if position < 0 || position > 8 then none
  else if cellAt board position.toNat != "" then none
  else some (board.set position.toNat player)

/-- A stored move record as consumed by the aging-aware board reconstruction:
`{moveNumber, position, player, expiredOnMove}`. -/
structure GMove where
  moveNumber : Int
  position : Int
  player : String
  expiredOnMove : Option Int

/-- Embedding of `GameEngine.getBoardFromMoves`: replay `{position, player}`
pairs onto a blank 9-cell board in list order, ignoring out-of-range
positions. -/
def getBoardFromMoves (moves : List (Int × String)) : List String :=
  moves.foldl
    (fun board m => if 0 ≤ m.1 && m.1 < 9 then board.set m.1.toNat m.2 else board)
    (List.replicate 9 "")

/-- The filter condition of `GameEngine.getActiveBoardFromMoves`:
`m.expiredOnMove == null || m.expiredOnMove > currentMoveNumber`. -/
def isActiveAt (m : GMove) (currentMoveNumber : Int) : Bool :=
  match m.expiredOnMove with
  | none => true
  | some e => currentMoveNumber < e

/-- Embedding of `GameEngine.getActiveBoardFromMoves`: drop expired moves,
then replay the remainder. -/
def getActiveBoardFromMoves (moves : List GMove) (currentMoveNumber : Int) :
    List String :=
  getBoardFromMoves
    ((moves.filter (fun m => isActiveAt m currentMoveNumber)).map
      (fun m => (m.position, m.player)))

/-- Exclusion predicate in the words of the specification: a move is excluded
exactly when its `expiredOnMove` is set and is at most `currentMoveNumber`. -/
def expiredBySpec (m : GMove) (currentMoveNumber : Int) : Bool :=
  match m.expiredOnMove with
  | none => false
  | some e => e ≤ currentMoveNumber

/-- Specification-side predicate: the three cells of line `l` are non-empty
and identical. -/
def lineFilled (board : List String) (l : Nat × Nat × Nat) : Prop :=
  cellAt board l.1 ≠ "" ∧ cellAt board l.1 = cellAt board l.2.1 ∧
    cellAt board l.1 = cellAt board l.2.2

instance (board : List String) (l : Nat × Nat × Nat) :
    Decidable (lineFilled board l) := by
  unfold lineFilled; infer_instance

/-- Specification-side predicate: line `l` is filled identically by the
non-empty symbol `s`. -/
def lineFilledBy (board : List String) (l : Nat × Nat × Nat) (s : String) : Prop :=
  s ≠ "" ∧ cellAt board l.1 = s ∧ cellAt board l.2.1 = s ∧ cellAt board l.2.2 = s

instance (board : List String) (l : Nat × Nat × Nat) (s : String) :
    Decidable (lineFilledBy board l s) := by
  unfold lineFilledBy; infer_instance

theorem lineWins_iff_filled (board : List String) (l : Nat × Nat × Nat) :
    lineWins board l = true ↔ lineFilled board l := by
  simp [lineWins, lineFilled, and_assoc]

/-- A `find?` that hits index `i` while every earlier index fails returns
element `i`. -/
theorem find?_eq_some_of_first {α : Type} (p : α → Bool) :
    ∀ (L : List α) (i : Nat) (hi : i < L.length),
      (∀ (j : Nat) (hj : j < i), p (L.get ⟨j, Nat.lt_trans hj hi⟩) = false) →
      p (L.get ⟨i, hi⟩) = true → L.find? p = some (L.get ⟨i, hi⟩)
  | [], i, hi, _, _ => absurd hi (by simp)
  | a :: L, 0, _, _, hp => by
      simpa using List.find?_cons_of_pos (p := p) L hp
  | a :: L, i + 1, hi, hprev, hp => by
      have ha : p a = false := hprev 0 (Nat.succ_pos i)
      rw [List.find?_cons_of_neg _ (by simp [ha])]
      exact find?_eq_some_of_first p L i (Nat.lt_of_succ_lt_succ hi)
        (fun j hj => hprev (j + 1) (Nat.succ_lt_succ hj)) hp

/-- C1 counterexample: on the board `O O O / X X X / _ _ _` the line
`(3,4,5)` is filled identically by `"X"` and the remaining cells are
arbitrary, yet `checkWinner` returns `"O"` (the first filled line in
enumeration order), not `"X"`; so filling a line identically with the rest
of the board arbitrary does not always make that symbol the winner. -/
theorem checkWinner_first_line_counterexample :
    (3, 4, 5) ∈ winningLines ∧
    lineFilledBy ["O", "O", "O", "X", "X", "X", "", "", ""] (3, 4, 5) "X" ∧
    checkWinner ["O", "O", "O", "X", "X", "X", "", "", ""] ≠ some "X" ∧
    checkWinner ["O", "O", "O", "X", "X", "X", "", "", ""] = some "O" := by
  refine ⟨by decide, by decide, by decide, by decide⟩

/-- C1 (amended): for every 9-cell board, `checkWinner` returns the occupying
symbol of the first winning line in the fixed enumeration order whose three
cells are non-empty and identical, and `none` when no line is filled.  So for
each of the 8 winning lines, a board in which that line is filled identically
by one symbol and in which no earlier line of the enumeration is identically
filled (the rest of the cells otherwise arbitrary) yields that symbol as the
winner; and a full board with no identically-filled line yields no winner and
`isDraw` true.  (The original claim let the rest of the board be fully
arbitrary without the no-earlier-filled-line proviso; the counterexample
shows that proviso is required.) -/
theorem checkWinner_first_line_spec (board : List String)
    (_hb : board.length = 9) :
    (∀ (i : Nat) (hi : i < winningLines.length) (s : String),
        lineFilledBy board (winningLines.get ⟨i, hi⟩) s →
        (∀ (j : Nat) (hj : j < i),
          ¬ lineFilled board (winningLines.get ⟨j, Nat.lt_trans hj hi⟩)) →
        checkWinner board = some s) ∧
    ((∀ l ∈ winningLines, ¬ lineFilled board l) → checkWinner board = none) ∧
    ((∀ l ∈ winningLines, ¬ lineFilled board l) → (∀ c ∈ board, c ≠ "") →
        checkWinner board = none ∧ isDraw board = true) := by
  have hnone : (∀ l ∈ winningLines, ¬ lineFilled board l) →
      checkWinner board = none := by
    intro h
    have : winningLines.find? (lineWins board) = none := by
      rw [List.find?_eq_none]
      intro l hl
      simpa [lineWins_iff_filled] using h l hl
    simp [checkWinner, this]
  refine ⟨?_, hnone, ?_⟩
  · intro i hi s hfill hprev
    have hcell : cellAt board (winningLines.get ⟨i, hi⟩).1 = s := hfill.2.1
    have hw : lineWins board (winningLines.get ⟨i, hi⟩) = true := by
      rw [lineWins_iff_filled]
      exact ⟨by rw [hcell]; exact hfill.1,
        by rw [hcell]; exact hfill.2.2.1.symm ▸ rfl,
        by rw [hcell]; exact hfill.2.2.2.symm ▸ rfl⟩
    have hfind : winningLines.find? (lineWins board) =
        some (winningLines.get ⟨i, hi⟩) := by
      apply find?_eq_some_of_first
      · intro j hj
        have := hprev j hj
        rcases h : lineWins board (winningLines.get ⟨j, Nat.lt_trans hj hi⟩) with _ | _
        · rfl
        · exact absurd ((lineWins_iff_filled _ _).mp h) this
      · exact hw
    unfold checkWinner
    rw [hfind]
    exact congrArg some hcell
  · intro h hfull
    have hcw := hnone h
    refine ⟨hcw, ?_⟩
    have hall : board.all (fun c => c != "") = true := by
      rw [List.all_eq_true]
      intro c hc
      simpa using hfull c hc
    simp [isDraw, hall, hcw]

/-- C1 witness: the theorem applied to two concrete boards — the bottom row
filled with X (earlier lines unfilled) wins for X, and a full drawn board has
no winner and is a draw. -/
theorem checkWinner_first_line_spec_witness :
    checkWinner ["O", "X", "O", "O", "X", "X", "X", "X", "X"] = some "X" ∧
    (checkWinner ["X", "O", "X", "X", "O", "O", "O", "X", "X"] = none ∧
      isDraw ["X", "O", "X", "X", "O", "O", "O", "X", "X"] = true) :=
  ⟨(checkWinner_first_line_spec ["O", "X", "O", "O", "X", "X", "X", "X", "X"]
        (by decide)).1 2 (by decide) "X" (by decide)
      (fun j hj => by
        interval_cases j
        · exact (by decide :
            ¬ lineFilled ["O", "X", "O", "O", "X", "X", "X", "X", "X"] (0, 1, 2))
        · exact (by decide :
            ¬ lineFilled ["O", "X", "O", "O", "X", "X", "X", "X", "X"] (3, 4, 5))),
    (checkWinner_first_line_spec ["X", "O", "X", "X", "O", "O", "O", "X", "X"]
        (by decide)).2.2
      (fun l hl => by fin_cases hl <;> decide)
      (fun c hc => by fin_cases hc <;> decide)⟩

/-- C2: `getActiveBoardFromMoves` excludes exactly the moves whose
`expiredOnMove` is set and at most `currentMoveNumber` and replays the
remaining moves in list order onto a blank board; in particular the two
concrete instances of the claim: with moves `[{1, pos 0, X, expiredOnMove 3},
{2, pos 4, O, expiredOnMove null}]`, at `currentMoveNumber = 3` the board is
empty except cell 4 = O, while at `currentMoveNumber = 2` move 1 is still
included. -/
theorem getActiveBoard_excludes_expired :
    (∀ (moves : List GMove) (n : Int),
        getActiveBoardFromMoves moves n =
          getBoardFromMoves
            ((moves.filter (fun m => !(expiredBySpec m n))).map
              (fun m => (m.position, m.player)))) ∧
    getActiveBoardFromMoves [⟨1, 0, "X", some 3⟩, ⟨2, 4, "O", none⟩] 3 =
      ["", "", "", "", "O", "", "", "", ""] ∧
    getActiveBoardFromMoves [⟨1, 0, "X", some 3⟩, ⟨2, 4, "O", none⟩] 2 =
      ["X", "", "", "", "O", "", "", "", ""] := by
  refine ⟨?_, by decide, by decide⟩
  intro moves n
  unfold getActiveBoardFromMoves
  congr 1
  congr 1
  apply List.filter_congr
  intro m _
  rcases h : m.expiredOnMove with _ | e
  · simp [isActiveAt, expiredBySpec, h]
  · simp only [isActiveAt, expiredBySpec, h]
    rw [← decide_not, decide_eq_decide]
    exact Int.not_le.symm

/-! Progression ladder (`src/config/progression.ts`) and the progression
service (`progressionService.ts`).  Points are JS numbers, modelled as `ℚ`;
the stage table thresholds are integer literals. -/

inductive RankKey
  | beginner
  | intermediate
  | advanced
  | master
  deriving DecidableEq, BEq

structure StageDef where
  rank : RankKey
  stage : Int
  label : String
  min : Int
  max : Option Int
  deriving DecidableEq

/-- Embedding of the `STAGES` table. -/
def STAGES : List StageDef :=
  [⟨.beginner, 1, "Beginner 1", 0, some 100⟩,
   ⟨.beginner, 2, "Beginner 2", 100, some 300⟩,
   ⟨.beginner, 3, "Beginner 3", 300, some 600⟩,
   ⟨.intermediate, 1, "Intermediate 1", 600, some 1000⟩,
   ⟨.intermediate, 2, "Intermediate 2", 1000, some 1500⟩,
   ⟨.intermediate, 3, "Intermediate 3", 1500, some 2500⟩,
   ⟨.advanced, 1, "Advanced 1", 2500, some 4000⟩,
   ⟨.advanced, 2, "Advanced 2", 4000, some 6000⟩,
   ⟨.advanced, 3, "Advanced 3", 6000, some 9000⟩,
   ⟨.master, 1, "Master 1", 9000, some 13000⟩,
   ⟨.master, 2, "Master 2", 13000, some 18000⟩,
   ⟨.master, 3, "Master 3", 18000, none⟩]

/-- The per-stage test of `findStageForPoints`:
`points >= s.min && (s.max == null || points < s.max)`. -/
def stageMatches (points : ℚ) (s : StageDef) : Bool :=
  decide ((s.min : ℚ) ≤ points) &&
    match s.max with
    | none => true
    | some mx => decide (points < (mx : ℚ))

/-- Embedding of `findStageForPoints`: the first matching stage, else the
final table entry (`stage ?? STAGES[STAGES.length - 1]`). -/
def findStageForPoints (points : ℚ) : StageDef :=
  match STAGES.find? (stageMatches points) with
  | some st => st
  | none => STAGES.getD (STAGES.length - 1) ⟨.beginner, 1, "Beginner 1", 0, some 100⟩

/-- Embedding of `getNextStage`. -/
def getNextStage (current : Option StageDef) : Option StageDef :=
  match current with
  | none => some (STAGES.getD 0 ⟨.beginner, 1, "Beginner 1", 0, some 100⟩)
  | some c =>
    match STAGES.findIdx? (fun s => s.rank == c.rank && s.stage == c.stage) with
    | none => some (STAGES.getD 0 ⟨.beginner, 1, "Beginner 1", 0, some 100⟩)
    | some idx => STAGES[idx + 1]?

/-- Embedding of `getProgressPercent`: 100 for the uncapped stage, otherwise
`Math.max(0, Math.min(100, Math.round((progressed / span) * 100)))` with
`progressed = Math.max(0, points - current.min)`. -/
def getProgressPercent (points : ℚ) (current : StageDef) : Int :=
  match current.max with
  | none => 100
  | some mx =>
    let span : ℚ := (mx : ℚ) - (current.min : ℚ)
    let progressed : ℚ := max 0 (points - (current.min : ℚ))
    max 0 (min 100 (round (progressed / span * 100)))

/-- C9: for every points value strictly below 0, no stage's half-open
interval matches (every stage minimum is at least 0), so `findStageForPoints`
falls back to the last table entry — Master 3 with minimum 18000 — rather
than Beginner 1. -/
theorem findStage_negative_points (p : ℚ) (hp : p < 0) :
    findStageForPoints p = ⟨.master, 3, "Master 3", 18000, none⟩ := by
  have hfind : STAGES.find? (stageMatches p) = none := by
    rw [List.find?_eq_none]
    intro s hs
    have h0 : (0 : ℚ) ≤ (s.min : ℚ) := by fin_cases hs <;> norm_num
    intro hpred
    rw [stageMatches, Bool.and_eq_true, decide_eq_true_eq] at hpred
    exact absurd hpred.1 (not_le.mpr (hp.trans_le h0))
  unfold findStageForPoints
  rw [hfind]
  rfl

/-- C9 witness: the theorem applied at points = -1. -/
theorem findStage_negative_points_witness :
    findStageForPoints (-1) = ⟨.master, 3, "Master 3", 18000, none⟩ :=
  findStage_negative_points (-1) (by norm_num)

/-- C7 counterexample: for the uncapped final stage, `getProgressPercent`
returns 100 — not 0 as the claim's first clause states. -/
theorem getProgressPercent_counterexample :
    getProgressPercent 18000 ⟨.master, 3, "Master 3", 18000, none⟩ = 100 ∧
    getProgressPercent 18000 ⟨.master, 3, "Master 3", 18000, none⟩ ≠ 0 :=
  ⟨rfl, by decide⟩

/-- Helper: the round of a negative rational is at most 0. -/
theorem round_nonpos_of_neg {x : ℚ} (hx : x < 0) : round x ≤ 0 := by
  rw [round_eq]
  have h1 : x + 1 / 2 ≤ 1 / 2 := by linarith
  calc ⌊x + 1 / 2⌋ ≤ ⌊(1 : ℚ) / 2⌋ := Int.floor_le_floor h1
    _ = 0 := by rw [Int.floor_eq_zero_iff]; constructor <;> norm_num

/-- C7 (amended): `getProgressPercent` returns 100 — not 0 — whenever
`current` is uncapped (`max = null`), so the final, uncapped stage always
reports 100%; and for every table stage with a finite cap it returns
`round(100 * (points - min) / (max - min))` clamped to `[0, 100]`. -/
theorem getProgressPercent_spec (points : ℚ) (current : StageDef) :
    (current.max = none → getProgressPercent points current = 100) ∧
    (current ∈ STAGES → ∀ mx : Int, current.max = some mx →
      getProgressPercent points current =
        min 100 (max 0
          (round (100 * (points - (current.min : ℚ)) /
            ((mx : ℚ) - (current.min : ℚ)))))) := by
  constructor
  · intro h
    unfold getProgressPercent
    rw [h]
  · intro hmem mx hmx
    have hspan : (0 : ℚ) < (mx : ℚ) - (current.min : ℚ) := by
      fin_cases hmem <;> simp at hmx <;> subst hmx <;> norm_num
    unfold getProgressPercent
    rw [hmx]
    simp only []
    by_cases hpm : (current.min : ℚ) ≤ points
    · have hprog : max 0 (points - (current.min : ℚ)) = points - (current.min : ℚ) :=
        max_eq_right (by linarith)
      rw [hprog]
      have harg : (points - (current.min : ℚ)) / ((mx : ℚ) - (current.min : ℚ)) * 100 =
          100 * (points - (current.min : ℚ)) / ((mx : ℚ) - (current.min : ℚ)) := by
        ring
      rw [harg]
      omega
    · have hneg : points - (current.min : ℚ) < 0 := by linarith
      have hprog : max 0 (points - (current.min : ℚ)) = 0 :=
        max_eq_left (by linarith)
      rw [hprog]
      have hz : (0 : ℚ) / ((mx : ℚ) - (current.min : ℚ)) * 100 = 0 := by
        rw [zero_div, zero_mul]
      rw [hz, round_zero]
      have hargneg : 100 * (points - (current.min : ℚ)) /
          ((mx : ℚ) - (current.min : ℚ)) < 0 :=
        div_neg_of_neg_of_pos (by linarith) hspan
      have := round_nonpos_of_neg hargneg
      omega

/-- C7 witness: the theorem applied to the uncapped Master 3 stage and to
Beginner 1 at 50 points (where it reports 50%). -/
theorem getProgressPercent_spec_witness :
    getProgressPercent 123456 ⟨.master, 3, "Master 3", 18000, none⟩ = 100 ∧
    getProgressPercent 50 ⟨.beginner, 1, "Beginner 1", 0, some 100⟩ =
      min 100 (max 0 (round (100 * ((50 : ℚ) - (0 : ℚ)) / ((100 : ℚ) - (0 : ℚ))))) :=
  ⟨(getProgressPercent_spec 123456 ⟨.master, 3, "Master 3", 18000, none⟩).1 rfl,
    (getProgressPercent_spec 50 ⟨.beginner, 1, "Beginner 1", 0, some 100⟩).2
      (by decide) 100 rfl⟩

/-! Progression service (`progressionService.ts`). -/

/-- Outcome of a completed game, recorded from the owner's perspective. -/
inductive GOutcome
  | win
  | lose
  | draw
  deriving DecidableEq

/-- Embedding of `POINT_REWARDS`. -/
def POINT_REWARDS : GOutcome → Int
  | .win => 25
  | .lose => 10
  | .draw => 10

/-- The denormalized skill snapshot stored on a user. -/
structure Skill where
  rank : RankKey
  stage : Int
  label : String
  deriving DecidableEq

/-- The slice of the `User` document that `applyGameResult` reads and
writes. -/
structure PUser where
  skillPoints : Option ℚ
  currentSkill : Option Skill
  nextSkill : Option Skill
  pointsToNextLevel : ℚ
  currentSkillAchievedAt : Option ℚ
  deriving DecidableEq

/-- Return shape of `getProgressForPoints`. -/
structure ProgressSnapshot where
  current : StageDef
  next : Option StageDef
  progressPercent : Int
  pointsToNextLevel : ℚ

/-- Embedding of `progressionService.getProgressForPoints`. -/
def getProgressForPoints (points : ℚ) : ProgressSnapshot :=
  let current := findStageForPoints points
  let next := getNextStage (some current)
  let progressPercent := getProgressPercent points current
  let pointsToNextLevel : ℚ :=
    match current.max with
    | none => 0
    | some mx => max 0 ((mx : ℚ) - points)
  ⟨current, next, progressPercent, pointsToNextLevel⟩

/-- Result of `applyGameResult`: the source returns
`{updated: false, leveledUp: false}` when the user is missing, and the full
result record otherwise. -/
inductive ApplyResult
  | missingUser
  | applied (leveledUp : Bool) (reward : Int) (snapshot : ProgressSnapshot)
      (skillPoints : ℚ) (previousSkill : Option String)

/-- The `leveledUp` flag reported by an `ApplyResult`, when the user was
found. -/
def ApplyResult.leveledUpFlag : ApplyResult → Option Bool
  | .missingUser => none
  | .applied l _ _ _ _ => some l

/-- The previous-skill label reported by an `ApplyResult`. -/
def ApplyResult.previousSkillLabel : ApplyResult → Option (Option String)
  | .missingUser => none
  | .applied _ _ _ _ p => some p

/-- Embedding of `progressionService.applyGameResult`: add the outcome's
reward to the user's points, recompute the stage snapshot, and report
`leveledUp` iff the previous label (`user.currentSkill?.label ?? null`)
differs from the new stage's label. -/
def applyGameResult (user : Option PUser) (outcome : GOutcome) (now : ℚ) :
    ApplyResult × Option PUser :=
  match user with
  | none => (.missingUser, none)
  | some u =>
    let reward := POINT_REWARDS outcome
    let prevPoints : ℚ := match u.skillPoints with | none => 0 | some p => p
    let newPoints := prevPoints + (reward : ℚ)
    let prevLabel : Option String :=
      match u.currentSkill with
      | none => none
      | some sk => some sk.label
    let snap := getProgressForPoints newPoints
    let leveledUp : Bool := prevLabel != some snap.current.label
    let u1 : PUser :=
      { skillPoints := some newPoints
        currentSkill := some ⟨snap.current.rank, snap.current.stage, snap.current.label⟩
        nextSkill := snap.next.map (fun n => ⟨n.rank, n.stage, n.label⟩)
        pointsToNextLevel := snap.pointsToNextLevel
        currentSkillAchievedAt := if leveledUp then some now else u.currentSkillAchievedAt }
    (.applied leveledUp reward snap newPoints prevLabel, some u1)

/-- C10: `applyGameResult` reports `leveledUp = true` for every user whose
stored `currentSkill` is absent before the update — in particular on a new
user's first completed game — because the previous label is then null, the
new label is the new stage's label, and every stage carries a (non-null)
string label, so the inequality `prevLabel !== current.label` always holds. -/
theorem applyGameResult_levels_up_fresh_user (u : PUser) (outcome : GOutcome)
    (now : ℚ) (h : u.currentSkill = none) :
    (applyGameResult (some u) outcome now).1.leveledUpFlag = some true ∧
    (applyGameResult (some u) outcome now).1.previousSkillLabel = some none := by
  unfold applyGameResult
  simp [h, ApplyResult.leveledUpFlag, ApplyResult.previousSkillLabel]

/-- C10 witness: the theorem applied to a fresh user record after a win. -/
theorem applyGameResult_levels_up_fresh_user_witness :
    (applyGameResult (some ⟨none, none, none, 0, none⟩) .win 0).1.leveledUpFlag =
      some true ∧
    (applyGameResult (some ⟨none, none, none, 0, none⟩) .win 0).1.previousSkillLabel =
      some none :=
  applyGameResult_levels_up_fresh_user ⟨none, none, none, 0, none⟩ .win 0 rfl

/-! Achievement catalog (`src/config/achievements.ts`) and the unlock loop of
`achievementService.checkAndUnlockAchievements`.  The persistent
`UserAchievement` collection is modelled as the list of its
`(userId, achievementId)` pairs, in creation order. -/

/-- The embedded `stats` aggregate of a `User` document. -/
structure UserStats where
  gamesPlayed : Int
  totalWins : Int
  totalLoses : Int
  totalDraws : Int
  currentWinStreak : Int
  currentLossStreak : Int
  longestWinStreak : Int
  expertAiWins : Int
  fastestWin : Option Int
  perfectWins : Int
  deriving DecidableEq

/-- One catalog entry: id, display metadata, target, and the progress and
condition functions over a user's stats. -/
structure AchievementDef where
  id : String
  title : String
  description : String
  icon : String
  target : Int
  progress : UserStats → Int
  condition : UserStats → Bool

/-- Embedding of the `ACHIEVEMENTS` catalog with its six entries. -/
def ACHIEVEMENTS : List AchievementDef :=
  [⟨"FIRST_WIN", "First Victory", "Win your first game", "Trophy", 1,
      fun u => if 0 < u.totalWins then 1 else 0,
      fun u => decide (1 ≤ u.totalWins)⟩,
   ⟨"WIN_STREAK_5", "On Fire", "Win 5 games in a row", "Flame", 5,
      fun u => min u.currentWinStreak 5,
      fun u => decide (5 ≤ u.currentWinStreak)⟩,
   ⟨"GAMES_50", "Dedicated Player", "Complete 50 games", "Zap", 50,
      fun u => min u.gamesPlayed 50,
      fun u => decide (50 ≤ u.gamesPlayed)⟩,
   ⟨"HARD_AI_10", "AI Master", "Win 10 games against hard AI", "Cpu", 10,
      fun u => min u.expertAiWins 10,
      fun u => decide (10 ≤ u.expertAiWins)⟩,
   ⟨"WIN_STREAK_10", "Unstoppable", "Win 10 games in a row", "Zap", 10,
      fun u => min u.currentWinStreak 10,
      fun u => decide (10 ≤ u.currentWinStreak)⟩,
   ⟨"GAMES_100", "Legend", "Complete 100 games", "Star", 100,
      fun u => min u.gamesPlayed 100,
      fun u => decide (100 ≤ u.gamesPlayed)⟩]

/-- One iteration of the loop in `checkAndUnlockAchievements`: skip the
definition when a `UserAchievement` record already exists for this user (the
`findOne` lookup), otherwise evaluate the condition and on success create the
record and report the id as newly unlocked. -/
def unlockStep (userId : String) (stats : UserStats)
    (acc : List (String × String) × List String) (adef : AchievementDef) :
    List (String × String) × List String :=
  if (acc.1.find? (fun r => r.1 == userId && r.2 == adef.id)).isSome then acc
  else if adef.condition stats then
    (acc.1 ++ [(userId, adef.id)], acc.2 ++ [adef.id])
  else acc

/-- Embedding of `achievementService.checkAndUnlockAchievements`: returns the
updated record collection together with the newly-unlocked id list (the
source returns `[]` and performs no write when the user is missing). -/
def checkAndUnlockAchievements (userId : String) (user : Option UserStats)
    (records : List (String × String)) :
    List (String × String) × List String :=
  match user with
  | none => (records, [])
  | some stats => ACHIEVEMENTS.foldl (unlockStep userId stats) (records, [])

theorem findPair_isSome_iff (R : List (String × String)) (uid aid : String) :
    (R.find? (fun r => r.1 == uid && r.2 == aid)).isSome = true ↔ (uid, aid) ∈ R := by
  rw [List.find?_isSome]
  constructor
  · rintro ⟨⟨a, b⟩, hmem, hp⟩
    simp only [Bool.and_eq_true, beq_iff_eq] at hp
    rcases hp with ⟨rfl, rfl⟩
    exact hmem
  · intro hmem
    exact ⟨(uid, aid), hmem, by simp⟩

theorem unlockStep_fst (uid : String) (stats : UserStats)
    (acc : List (String × String) × List String) (d : AchievementDef) :
    (unlockStep uid stats acc d).1 = acc.1 ∨
    (unlockStep uid stats acc d).1 = acc.1 ++ [(uid, d.id)] := by
  unfold unlockStep
  split
  · exact Or.inl rfl
  · split
    · exact Or.inr rfl
    · exact Or.inl rfl

theorem unlockFold_append (uid : String) (stats : UserStats) :
    ∀ (defs : List AchievementDef) (acc : List (String × String) × List String),
      ∃ extra, (defs.foldl (unlockStep uid stats) acc).1 = acc.1 ++ extra
  | [], acc => ⟨[], by simp⟩
  | d :: defs, acc => by
      rw [List.foldl_cons]
      obtain ⟨extra, hextra⟩ := unlockFold_append uid stats defs (unlockStep uid stats acc d)
      rcases unlockStep_fst uid stats acc d with h | h
      · exact ⟨extra, by rw [hextra, h]⟩
      · exact ⟨(uid, d.id) :: extra, by rw [hextra, h, List.append_assoc]; rfl⟩

theorem unlockFold_mem_of_condition (uid : String) (stats : UserStats) :
    ∀ (defs : List AchievementDef) (acc : List (String × String) × List String)
      (adef : AchievementDef), adef ∈ defs → adef.condition stats = true →
      (uid, adef.id) ∈ (defs.foldl (unlockStep uid stats) acc).1
  | [], _, _, hmem, _ => absurd hmem (List.not_mem_nil _)
  | d :: defs, acc, adef, hmem, hcond => by
      rcases List.mem_cons.mp hmem with rfl | hmem'
      · have hd : (uid, adef.id) ∈ (unlockStep uid stats acc adef).1 := by
          unfold unlockStep
          by_cases hfound :
              (acc.1.find? (fun r => r.1 == uid && r.2 == adef.id)).isSome = true
          · rw [if_pos hfound]
            exact (findPair_isSome_iff _ _ _).mp hfound
          · rw [if_neg hfound, if_pos hcond]
            simp
        obtain ⟨extra, hextra⟩ :=
          unlockFold_append uid stats defs (unlockStep uid stats acc adef)
        rw [List.foldl_cons, hextra]
        exact List.mem_append.mpr (Or.inl hd)
      · rw [List.foldl_cons]
        exact unlockFold_mem_of_condition uid stats defs _ adef hmem' hcond

theorem unlockFold_fixed (uid : String) (stats : UserStats) :
    ∀ (defs : List AchievementDef) (R : List (String × String)) (L : List String),
      (∀ adef ∈ defs, adef.condition stats = true → (uid, adef.id) ∈ R) →
      defs.foldl (unlockStep uid stats) (R, L) = (R, L)
  | [], R, L, _ => rfl
  | d :: defs, R, L, h => by
      have hstep : unlockStep uid stats (R, L) d = (R, L) := by
        unfold unlockStep
        split
        · rfl
        · next hnf =>
          have hnotmem : (uid, d.id) ∉ R := by
            intro hmem
            exact hnf ((findPair_isSome_iff R uid d.id).mpr hmem)
          rcases hc : d.condition stats with _ | _
          · simp
          · exact absurd (h d (by simp) hc) hnotmem
      rw [List.foldl_cons, hstep]
      exact unlockFold_fixed uid stats defs R L (fun a ha => h a (List.mem_cons_of_mem _ ha))

theorem unlockFold_nodup (uid : String) (stats : UserStats) :
    ∀ (defs : List AchievementDef) (acc : List (String × String) × List String),
      acc.1.Nodup → (defs.foldl (unlockStep uid stats) acc).1.Nodup
  | [], _, h => h
  | d :: defs, acc, h => by
      rw [List.foldl_cons]
      apply unlockFold_nodup uid stats defs
      unfold unlockStep
      split
      · exact h
      · next hnf =>
        split
        · refine List.Nodup.append h (by simp) ?_
          rw [List.disjoint_singleton]
          intro hmem
          exact hnf ((findPair_isSome_iff _ _ _).mpr hmem)
        · exact h

theorem countP_eq_one_of_nodup_mem {α : Type} [DecidableEq α] {l : List α}
    (h : l.Nodup) {a : α} (ha : a ∈ l) :
    l.countP (fun x => decide (x = a)) = 1 := by
  induction l with
  | nil => cases ha
  | cons b t ih =>
    rw [List.countP_cons]
    rcases List.mem_cons.mp ha with rfl | hat
    · have h0 : t.countP (fun x => decide (x = a)) = 0 := by
        rw [List.countP_eq_zero]
        intro x hx
        simp only [decide_eq_true_eq]
        rintro rfl
        exact (List.nodup_cons.mp h).1 hx
      simp [h0]
    · have hne : b ≠ a := by
        rintro rfl
        exact (List.nodup_cons.mp h).1 hat
      have hcount := ih (List.nodup_cons.mp h).2 hat
      simp [hcount, hne]

/-- C6: `checkAndUnlockAchievements` is idempotent.  (i) Starting from a
record collection with at most one record per (user, achievementId) pair, the
collection after a call still has at most one record per pair; (ii) a second
call in succession (same stats) changes nothing and returns an empty
newly-unlocked list; (iii) when the stats satisfy a catalog achievement's
condition, one call leaves exactly one record for that (user, achievementId)
pair. -/
theorem checkAndUnlock_idempotent (uid : String) (stats : UserStats)
    (recs : List (String × String)) (hnd : recs.Nodup) :
    ((checkAndUnlockAchievements uid (some stats) recs).1.Nodup) ∧
    (checkAndUnlockAchievements uid (some stats)
        (checkAndUnlockAchievements uid (some stats) recs).1 =
      ((checkAndUnlockAchievements uid (some stats) recs).1, [])) ∧
    (∀ adef ∈ ACHIEVEMENTS, adef.condition stats = true →
      ((checkAndUnlockAchievements uid (some stats) recs).1).countP
        (fun r => decide (r = (uid, adef.id))) = 1) := by
  have hred : ∀ R : List (String × String),
      checkAndUnlockAchievements uid (some stats) R =
        ACHIEVEMENTS.foldl (unlockStep uid stats) (R, []) := fun R => rfl
  simp only [hred]
  refine ⟨unlockFold_nodup uid stats ACHIEVEMENTS (recs, []) hnd, ?_, ?_⟩
  · exact unlockFold_fixed uid stats ACHIEVEMENTS _ []
      (fun adef ha hc =>
        unlockFold_mem_of_condition uid stats ACHIEVEMENTS (recs, []) adef ha hc)
  · intro adef ha hc
    exact countP_eq_one_of_nodup_mem
      (unlockFold_nodup uid stats ACHIEVEMENTS (recs, []) hnd)
      (unlockFold_mem_of_condition uid stats ACHIEVEMENTS (recs, []) adef ha hc)

/-- C6 witness: a user with one total win and no prior records unlocks
FIRST_WIN exactly once; the second call returns an empty newly-unlocked
list. -/
theorem checkAndUnlock_idempotent_witness :
    ((checkAndUnlockAchievements "u1"
        (some ⟨1, 1, 0, 0, 1, 0, 1, 0, none, 0⟩) []).1.Nodup) ∧
    (checkAndUnlockAchievements "u1" (some ⟨1, 1, 0, 0, 1, 0, 1, 0, none, 0⟩)
        (checkAndUnlockAchievements "u1"
          (some ⟨1, 1, 0, 0, 1, 0, 1, 0, none, 0⟩) []).1 =
      ((checkAndUnlockAchievements "u1"
          (some ⟨1, 1, 0, 0, 1, 0, 1, 0, none, 0⟩) []).1, [])) ∧
    (∀ adef ∈ ACHIEVEMENTS, adef.condition ⟨1, 1, 0, 0, 1, 0, 1, 0, none, 0⟩ = true →
      ((checkAndUnlockAchievements "u1"
          (some ⟨1, 1, 0, 0, 1, 0, 1, 0, none, 0⟩) []).1).countP
        (fun r => decide (r = ("u1", adef.id))) = 1) :=
  checkAndUnlock_idempotent "u1" ⟨1, 1, 0, 0, 1, 0, 1, 0, none, 0⟩ [] List.nodup_nil

/-! Recommendation service (`src/services/recommendationService.ts`).  The
cache row is read once at entry and then re-read once per polling second;
those reads are modelled as an environment function from poll number (1-based)
to the row observed, with `nowAt` the clock at each poll.  The external
generation call and the game fetch are the service's external boundaries and
are modelled by the `noCompletedGames` flag and the `geminiRecs` payload. -/

inductive CacheStatus
  | processing
  | completed
  | failed
  deriving DecidableEq

/-- The fields of a `RecommendationCache` row that `generateRecommendations`
reads. -/
structure CacheRow where
  recommendations : List String
  status : CacheStatus
  expiresAt : ℚ

/-- The polling loop body of `waitForProcessing`: `k` is the 1-based number
of the next poll, `fuel` the number of polls still allowed (the source allows
30 one-second polls before the 30000 ms budget is spent). -/
def waitPoll (cacheAt : Nat → Option CacheRow) (nowAt : Nat → ℚ) :
    Nat → Nat → Option (List String)
  | _, 0 => none
  | k, fuel + 1 =>
    match cacheAt k with
    | none => none
    | some c =>
      if c.status = .completed ∧ nowAt k < c.expiresAt then some c.recommendations
      else if c.status = .failed then none
      else waitPoll cacheAt nowAt (k + 1) fuel

/-- Embedding of `recommendationService.waitForProcessing`: up to 30 polls,
one per second. -/
def waitForProcessing (cacheAt : Nat → Option CacheRow) (nowAt : Nat → ℚ) :
    Option (List String) :=
  waitPoll cacheAt nowAt 1 30

/-- Environment of one `generateRecommendations` call. -/
structure RecEnv where
  existingCache : Option CacheRow
  cacheAt : Nat → Option CacheRow
  nowAt : Nat → ℚ
  now : ℚ
  noCompletedGames : Bool
  geminiRecs : List String

/-- Result of a `generateRecommendations` call: what was returned, and
whether the call fell through to a new generation (the upsert to
`processing` followed by fetching games and calling the generator). -/
structure RecResult where
  returned : List String
  regenerated : Bool
  deriving DecidableEq

/-- The single default recommendation stored for users without completed
games, identified here by its title. -/
def defaultRecommendations : List String := ["Start Your Journey!"]

/-- The regeneration tail of `generateRecommendations`: upsert to
processing, then either store the default recommendation (no completed
games) or call the external generator and store its result. -/
def regenerate (env : RecEnv) : RecResult :=
  if env.noCompletedGames then ⟨defaultRecommendations, true⟩
  else ⟨env.geminiRecs, true⟩

/-- Embedding of `recommendationService.generateRecommendations`: return a
valid completed cache immediately; wait on a processing cache and return the
result of the concurrent generation when it lands in time; in every other
case — including a poll window that expires with the row still processing —
fall through to `regenerate`. -/
def generateRecommendations (env : RecEnv) : RecResult :=
  match env.existingCache with
  | some c =>
    if c.status = .completed ∧ env.now < c.expiresAt then ⟨c.recommendations, false⟩
    else if c.status = .processing then
      match waitForProcessing env.cacheAt env.nowAt with
      | some recs => ⟨recs, false⟩
      | none => regenerate env
    else regenerate env
  | none => regenerate env

/-- C8 counterexample: with the cache row processing at the initial read and
at every one of the 30 polls, `generateRecommendations` does not return
null/empty — it falls through and returns a fresh generation. -/
theorem generateRecommendations_counterexample :
    generateRecommendations
        ⟨some ⟨[], .processing, 0⟩, fun _ => some ⟨[], .processing, 0⟩,
          fun _ => 0, 0, false, ["fresh"]⟩ =
      ⟨["fresh"], true⟩ ∧
    (generateRecommendations
        ⟨some ⟨[], .processing, 0⟩, fun _ => some ⟨[], .processing, 0⟩,
          fun _ => 0, 0, false, ["fresh"]⟩).returned ≠ [] :=
  ⟨rfl, by decide⟩

theorem waitPoll_none_of_processing (cacheAt : Nat → Option CacheRow)
    (nowAt : Nat → ℚ) :
    ∀ (fuel k : Nat),
      (∀ j, k ≤ j → j < k + fuel →
        ∃ row, cacheAt j = some row ∧ row.status = .processing) →
      waitPoll cacheAt nowAt k fuel = none
  | 0, _, _ => rfl
  | fuel + 1, k, h => by
      obtain ⟨row, hrow, hst⟩ := h k le_rfl (by omega)
      unfold waitPoll
      simp only [hrow]
      rw [if_neg (by rintro ⟨h1, -⟩; rw [hst] at h1; exact nomatch h1)]
      rw [if_neg (by rw [hst]; rintro h1; exact nomatch h1)]
      exact waitPoll_none_of_processing cacheAt nowAt fuel (k + 1)
        (fun j hj1 hj2 => h j (by omega) (by omega))

theorem waitPoll_some_of_completed (cacheAt : Nat → Option CacheRow)
    (nowAt : Nat → ℚ) :
    ∀ (fuel k m : Nat) (row : CacheRow), k ≤ m → m < k + fuel →
      (∀ j, k ≤ j → j < m →
        ∃ r, cacheAt j = some r ∧ r.status = .processing) →
      cacheAt m = some row → row.status = .completed → nowAt m < row.expiresAt →
      waitPoll cacheAt nowAt k fuel = some row.recommendations
  | 0, k, m, _, hkm, hm, _, _, _, _ => absurd hm (by omega)
  | fuel + 1, k, m, row, hkm, hm, hprev, hrow, hst, hexp => by
      rcases Nat.eq_or_lt_of_le hkm with rfl | hlt
      · unfold waitPoll
        simp only [hrow]
        rw [if_pos ⟨hst, hexp⟩]
      · obtain ⟨r, hr, hrst⟩ := hprev k le_rfl hlt
        unfold waitPoll
        simp only [hr]
        rw [if_neg (by rintro ⟨h1, -⟩; rw [hrst] at h1; exact nomatch h1)]
        rw [if_neg (by rw [hrst]; rintro h1; exact nomatch h1)]
        exact waitPoll_some_of_completed cacheAt nowAt fuel (k + 1) m row hlt
          (by omega) (fun j hj1 hj2 => hprev j (by omega) hj2) hrow hst hexp

/-- C8 (amended): when the user's cache row is in status processing,
`generateRecommendations` polls it once per second for up to 30 seconds and
returns its recommendations without regenerating if some poll within the
window finds it completed with an unexpired `expiresAt`; but if it is still
processing at every poll of the 30-second window, the implementation falls
through to a new generation (it upserts the row to processing and
regenerates) rather than returning null/empty. -/
theorem generateRecommendations_spec (env : RecEnv) (c : CacheRow)
    (hex : env.existingCache = some c) (hproc : c.status = .processing) :
    ((∀ k, 1 ≤ k → k ≤ 30 →
        ∃ row, env.cacheAt k = some row ∧ row.status = .processing) →
      generateRecommendations env = regenerate env ∧
        (generateRecommendations env).regenerated = true) ∧
    (∀ (k : Nat) (row : CacheRow), 1 ≤ k → k ≤ 30 →
      (∀ j, 1 ≤ j → j < k →
        ∃ r, env.cacheAt j = some r ∧ r.status = .processing) →
      env.cacheAt k = some row → row.status = .completed →
      env.nowAt k < row.expiresAt →
      generateRecommendations env = ⟨row.recommendations, false⟩) := by
  have hbranch_none : waitForProcessing env.cacheAt env.nowAt = none →
      generateRecommendations env = regenerate env := by
    intro hw
    unfold generateRecommendations
    simp only [hex]
    rw [if_neg (by rintro ⟨h1, -⟩; rw [hproc] at h1; exact nomatch h1)]
    rw [if_pos hproc]
    simp only [hw]
  have hbranch_some : ∀ recs, waitForProcessing env.cacheAt env.nowAt = some recs →
      generateRecommendations env = ⟨recs, false⟩ := by
    intro recs hw
    unfold generateRecommendations
    simp only [hex]
    rw [if_neg (by rintro ⟨h1, -⟩; rw [hproc] at h1; exact nomatch h1)]
    rw [if_pos hproc]
    simp only [hw]
  constructor
  · intro hall
    have hnone : waitForProcessing env.cacheAt env.nowAt = none :=
      waitPoll_none_of_processing env.cacheAt env.nowAt 30 1
        (fun j hj1 hj2 => hall j hj1 (by omega))
    have hre := hbranch_none hnone
    refine ⟨hre, ?_⟩
    rw [hre]
    unfold regenerate
    split <;> rfl
  · intro k row hk1 hk30 hprev hrow hst hexp
    exact hbranch_some row.recommendations
      (waitPoll_some_of_completed env.cacheAt env.nowAt 30 1 k row hk1 (by omega)
        hprev hrow hst hexp)

/-- C8 witness: both branches of the theorem at concrete environments — a
row that completes (unexpired) at the third poll is returned without
regeneration, and a row that stays processing for all 30 polls leads to
regeneration. -/
theorem generateRecommendations_spec_witness :
    generateRecommendations
        ⟨some ⟨[], .processing, 0⟩,
          fun k => if k < 3 then some ⟨[], .processing, 0⟩
            else some ⟨["cached"], .completed, 100⟩,
          fun _ => 0, 0, false, ["fresh"]⟩ =
      ⟨["cached"], false⟩ ∧
    (generateRecommendations
        ⟨some ⟨[], .processing, 0⟩, fun _ => some ⟨[], .processing, 0⟩,
          fun _ => 0, 0, true, ["fresh"]⟩).regenerated = true :=
  ⟨(generateRecommendations_spec
      ⟨some ⟨[], .processing, 0⟩,
        fun k => if k < 3 then some ⟨[], .processing, 0⟩
          else some ⟨["cached"], .completed, 100⟩,
        fun _ => 0, 0, false, ["fresh"]⟩
      ⟨[], .processing, 0⟩ rfl rfl).2 3 ⟨["cached"], .completed, 100⟩
      (by omega) (by omega)
      (fun j hj1 hj2 => by
        interval_cases j
        · exact ⟨⟨[], .processing, 0⟩, rfl, rfl⟩
        · exact ⟨⟨[], .processing, 0⟩, rfl, rfl⟩)
      rfl rfl (by norm_num),
    ((generateRecommendations_spec
      ⟨some ⟨[], .processing, 0⟩, fun _ => some ⟨[], .processing, 0⟩,
        fun _ => 0, 0, true, ["fresh"]⟩
      ⟨[], .processing, 0⟩ rfl rfl).1
      (fun k hk1 hk2 => ⟨⟨[], .processing, 0⟩, rfl, rfl⟩)).2⟩

/-! Socket service (`socketService.ts`): the game-document mutations of the
move pipeline, the AI continuation, and the timeout-forfeit handler.  The
user-side effects (stats rollup, achievements, progression) touch only the
User/UserAchievement collections and are modelled by their own embeddings
above; `Date.now()` is passed in as a parameter. -/

inductive PlayerSym
  | X
  | O
  deriving DecidableEq

inductive GStatus
  | inProgress
  | completed
  | abandoned
  | paused
  deriving DecidableEq

/-- The slice of a `Game` document that the socket pipelines read and
write. -/
structure GameSt where
  status : GStatus
  outcome : Option GOutcome
  winningLine : Option (Nat × Nat × Nat)
  timeoutLoser : Option PlayerSym
  timerEnabled : Bool
  playerXTimeRemaining : ℚ
  playerOTimeRemaining : ℚ
  timerLastStartedAt : Option ℚ
  duration : Int
  createdAt : ℚ
  deriving DecidableEq

/-- Room events emitted by the timeout-forfeit pipeline. -/
inductive SocketEvent
  | timerUpdate (playerXTimeRemaining playerOTimeRemaining : ℚ)
      (activePlayer : Option PlayerSym)
  | gameTimeout (winner loser : PlayerSym)
  | gameEnd (result : Option GOutcome) (winningLine : Option (Nat × Nat × Nat))
  deriving DecidableEq

/-- Embedding of `SocketService.handleTimeout`: no-op when the game is no
longer in progress; otherwise forfeit the game against the timed-out player,
zero that player's clock, stop the timer, roll the duration forward, and emit
a timer snapshot, `game-timeout`, and the `game-end` payload (with
`winningLine: null`) to the game room and the owner's room. -/
def handleTimeout (g : GameSt) (timedOutPlayer : PlayerSym) (now : ℚ) :
    GameSt × List SocketEvent :=
  if g.status ≠ .inProgress then (g, [])
  else
    let elapsedSeconds : Int := ⌊(now - g.createdAt) / 1000⌋
    let g1 : GameSt :=
      { g with
        outcome := some (if timedOutPlayer = .X then .lose else .win)
        status := .completed
        timeoutLoser := some timedOutPlayer
        playerXTimeRemaining :=
          if timedOutPlayer = .X then 0 else g.playerXTimeRemaining
        playerOTimeRemaining :=
          if timedOutPlayer = .O then 0 else g.playerOTimeRemaining
        timerLastStartedAt := none
        duration := if g.duration < elapsedSeconds then elapsedSeconds else g.duration }
    (g1,
      [.timerUpdate g1.playerXTimeRemaining g1.playerOTimeRemaining
          (some timedOutPlayer),
        .gameTimeout (if timedOutPlayer = .X then .O else .X) timedOutPlayer,
        .gameEnd g1.outcome none,
        .gameEnd g1.outcome none])

/-- The winner/draw completion block that the make-move handler runs after a
human move: outcome is from the owner's (X's) perspective, the winning line
is recorded when present, and the clocks stop. -/
def settleAfterHumanMove (g : GameSt) (board : List String) : GameSt :=
  match checkWinner board with
  | some w =>
    let g1 : GameSt :=
      { g with
        outcome := some (if w == "X" then GOutcome.win else GOutcome.lose)
        status := .completed
        timerLastStartedAt := none }
    match getWinningLine board with
    | some l => { g1 with winningLine := some l }
    | none => g1
  | none =>
    if isDraw board then
      { g with outcome := some .draw, status := .completed, timerLastStartedAt := none }
    else g

/-- The completion block of the deferred AI continuation: identical shape,
with the outcome inverted (`aiWinner === "O" ? "lose" : "win"`). -/
def settleAfterAiMove (g : GameSt) (board : List String) : GameSt :=
  match checkWinner board with
  | some w =>
    let g1 : GameSt :=
      { g with
        outcome := some (if w == "O" then GOutcome.lose else GOutcome.win)
        status := .completed
        timerLastStartedAt := none }
    match getWinningLine board with
    | some l => { g1 with winningLine := some l }
    | none => g1
  | none =>
    if isDraw board then
      { g with outcome := some .draw, status := .completed, timerLastStartedAt := none }
    else g

/-- One game-document mutation performed by the socket pipelines.  The
bookkeeping performed before the completion check (duration roll-forward,
timer deduction, re-arming of `timerLastStartedAt`) touches neither status
nor outcome nor winningLine and is abstracted by the parameters `d`, `tx`,
`ty`, `tls`.  The status preconditions are the handler's guards: a move is
rejected on a completed or abandoned game, and the AI continuation only runs
when the handler did not just complete the game. -/
inductive GameStep : GameSt → GameSt → Prop
  | humanMove (g : GameSt) (board : List String) (d : Int) (tx ty : ℚ)
      (tls : Option ℚ) (h1 : g.status ≠ .completed) (h2 : g.status ≠ .abandoned) :
      GameStep g (settleAfterHumanMove
        { g with duration := d, playerXTimeRemaining := tx,
                 playerOTimeRemaining := ty, timerLastStartedAt := tls } board)
  | aiMove (g : GameSt) (board : List String) (d : Int) (tx ty : ℚ)
      (tls : Option ℚ) (h : g.status ≠ .completed) :
      GameStep g (settleAfterAiMove
        { g with duration := d, playerXTimeRemaining := tx,
                 playerOTimeRemaining := ty, timerLastStartedAt := tls } board)
  | timeout (g : GameSt) (p : PlayerSym) (now : ℚ) :
      GameStep g (handleTimeout g p now).1

/-- A newly created game document (`createGame`): in progress, no outcome,
no winning line, no timeout loser; the timer configuration varies by
creation path. -/
def initialGame (timerEnabled : Bool) (turnBudget : ℚ) (createdAt : ℚ) : GameSt :=
  { status := .inProgress, outcome := none, winningLine := none,
    timeoutLoser := none, timerEnabled := timerEnabled,
    playerXTimeRemaining := turnBudget, playerOTimeRemaining := turnBudget,
    timerLastStartedAt := none, duration := 0, createdAt := createdAt }

/-- Game states reachable from creation through the socket move pipeline and
the timeout-forfeit pipeline. -/
inductive ReachableGame : GameSt → Prop
  | init (timerEnabled : Bool) (turnBudget : ℚ) (createdAt : ℚ) :
      ReachableGame (initialGame timerEnabled turnBudget createdAt)
  | step (g g' : GameSt) : ReachableGame g → GameStep g g' → ReachableGame g'

/-- The claimed invariant: outcome is set iff the game is completed, and any
recorded winning line is one of the 8 rows, columns or diagonals. -/
def GameInv (g : GameSt) : Prop :=
  (g.outcome ≠ none ↔ g.status = .completed) ∧
  (∀ l, g.winningLine = some l → l ∈ winningLines)

theorem settleAfterHumanMove_inv (g : GameSt) (board : List String)
    (h : GameInv g) : GameInv (settleAfterHumanMove g board) := by
  unfold settleAfterHumanMove
  split
  · rcases heq : getWinningLine board with _ | l
    · simp only [heq]
      exact ⟨by simp, h.2⟩
    · simp only [heq]
      refine ⟨by simp, ?_⟩
      intro l' hl'
      simp only [Option.some.injEq] at hl'
      subst hl'
      exact List.mem_of_find?_eq_some heq
  · split
    · exact ⟨by simp, h.2⟩
    · exact h

theorem settleAfterAiMove_inv (g : GameSt) (board : List String)
    (h : GameInv g) : GameInv (settleAfterAiMove g board) := by
  unfold settleAfterAiMove
  split
  · rcases heq : getWinningLine board with _ | l
    · simp only [heq]
      exact ⟨by simp, h.2⟩
    · simp only [heq]
      refine ⟨by simp, ?_⟩
      intro l' hl'
      simp only [Option.some.injEq] at hl'
      subst hl'
      exact List.mem_of_find?_eq_some heq
  · split
    · exact ⟨by simp, h.2⟩
    · exact h

theorem handleTimeout_inv (g : GameSt) (p : PlayerSym) (now : ℚ)
    (h : GameInv g) : GameInv (handleTimeout g p now).1 := by
  unfold handleTimeout
  split
  · exact h
  · exact ⟨by simp, h.2⟩

/-- C3: in every game state reachable through the socket move pipeline (human
and AI completion blocks) and the timeout-forfeit pipeline, the outcome is
set iff the status is completed, and the winning line, when present, is one
of the 8 rows, columns or diagonals. -/
theorem game_state_invariant (g : GameSt) (h : ReachableGame g) : GameInv g := by
  induction h with
  | init timerEnabled turnBudget createdAt =>
    exact ⟨by simp [initialGame], fun l hl => by simp [initialGame] at hl⟩
  | step g g' hr hstep ih =>
    cases hstep with
    | humanMove board d tx ty tls h1 h2 => exact settleAfterHumanMove_inv _ board ih
    | aiMove board d tx ty tls h1 => exact settleAfterAiMove_inv _ board ih
    | timeout p now => exact handleTimeout_inv g p now ih

/-- C3 witness: the invariant at a concrete reachable state — a fresh game
after a timeout forfeit of player X. -/
theorem game_state_invariant_witness :
    GameInv (handleTimeout (initialGame true 30 0) .X 31000).1 :=
  game_state_invariant _
    (ReachableGame.step _ _ (ReachableGame.init true 30 0)
      (GameStep.timeout (initialGame true 30 0) .X 31000))

/-- C4: when the timeout-forfeit handler runs for a game: if the game is no
longer in progress, it makes no state change and emits nothing; otherwise it
zeroes the timed-out player's remaining time, sets `timeoutLoser` to that
player, sets the outcome to lose when X (the owner's side) timed out and win
otherwise, sets the status to completed, nulls `timerLastStartedAt`, and
emits `game-timeout` followed by the `game-end` payload with a null
winningLine (after the zeroed timer snapshot). -/
theorem handleTimeout_spec (g : GameSt) (p : PlayerSym) (now : ℚ) :
    (g.status ≠ .inProgress → handleTimeout g p now = (g, [])) ∧
    (g.status = .inProgress →
      (handleTimeout g p now).1.status = .completed ∧
      (handleTimeout g p now).1.outcome = some (if p = .X then .lose else .win) ∧
      (handleTimeout g p now).1.timeoutLoser = some p ∧
      (p = .X → (handleTimeout g p now).1.playerXTimeRemaining = 0) ∧
      (p = .O → (handleTimeout g p now).1.playerOTimeRemaining = 0) ∧
      (handleTimeout g p now).1.timerLastStartedAt = none ∧
      (handleTimeout g p now).2 =
        [.timerUpdate (if p = .X then 0 else g.playerXTimeRemaining)
            (if p = .O then 0 else g.playerOTimeRemaining) (some p),
          .gameTimeout (if p = .X then .O else .X) p,
          .gameEnd (some (if p = .X then .lose else .win)) none,
          .gameEnd (some (if p = .X then .lose else .win)) none]) := by
  constructor
  · intro h
    unfold handleTimeout
    rw [if_pos h]
  · intro h
    have hred : ¬ g.status ≠ .inProgress := not_not.mpr h
    unfold handleTimeout
    rw [if_neg hred]
    exact ⟨rfl, rfl, rfl, fun hp => by simp [hp], fun hp => by simp [hp], rfl, rfl⟩

/-- C4 witness: the theorem applied to an in-progress game with player X
timing out, and to an already-completed game (no-op). -/
theorem handleTimeout_spec_witness :
    (handleTimeout ⟨.inProgress, none, none, none, true, 30, 30, some 0, 0, 0⟩
        .X 5000).1.status = .completed ∧
    handleTimeout ⟨.completed, some .win, none, none, true, 30, 30, none, 9, 0⟩
        .O 5000 =
      (⟨.completed, some .win, none, none, true, 30, 30, none, 9, 0⟩, []) :=
  ⟨((handleTimeout_spec ⟨.inProgress, none, none, none, true, 30, 30, some 0, 0, 0⟩
      .X 5000).2 rfl).1,
    (handleTimeout_spec ⟨.completed, some .win, none, none, true, 30, 30, none, 9, 0⟩
      .O 5000).1 (by decide)⟩

/-! AI opponent (`aiService.ts`): minimax with a fixed depth per difficulty.
JS number scores are -Infinity, +Infinity, or finite integers; they are
modelled by `JNum`.  The loop body computes the candidate's score once and
compares it against the running best with a strict inequality, so the first
best-scoring move in ascending cell order is kept. -/

inductive JNum
  | negInf
  | num (n : Int)
  | posInf
  deriving DecidableEq

/-- The `<` comparison on JS numbers restricted to the values minimax
manipulates. -/
def JNum.ltb : JNum → JNum → Bool
  | .negInf, .negInf => false
  | .negInf, _ => true
  | .num a, .num b => decide (a < b)
  | .num _, .posInf => true
  | _, _ => false

inductive Difficulty
  | easy
  | medium
  | hard
  deriving DecidableEq

/-- Embedding of `AIService.difficultyDepths`. -/
def difficultyDepths : Difficulty → Nat
  | .easy => 1
  | .medium => 3
  | .hard => 5

/-- One iteration of minimax's move loop: replace the running
(bestScore, bestIndex) when the candidate's score strictly improves it for
the current player (`score > bestScore` when maximizing, `score < bestScore`
when minimizing). -/
def selStep (isMax : Bool) (f : Nat → JNum) (best : JNum × Int) (move : Nat) :
    JNum × Int :=
  if (if isMax then JNum.ltb best.1 (f move) else JNum.ltb (f move) best.1) then
    (f move, (move : Int))
  else best

/-- Embedding of `AIService.minimax`: terminal checks (winner, then draw or
exhausted depth), then the move loop seeded with -Infinity/+Infinity and
bestIndex -1. -/
def minimax : List String → Nat → Bool → JNum × Int
  | board, 0, _ =>
    if checkWinner board == some "O" then (.num 10, -1)
    else if checkWinner board == some "X" then (.num (-10), -1)
    else (.num 0, -1)
  | board, depth + 1, isMax =>
    if checkWinner board == some "O" then (.num 10, -1)
    else if checkWinner board == some "X" then (.num (-10), -1)
    else if isDraw board then (.num 0, -1)
    else
      (getAvailableMoves board).foldl
        (selStep isMax
          (fun move =>
            (minimax (board.set move (if isMax then "O" else "X")) depth (!isMax)).1))
        (if isMax then (.negInf, -1) else (.posInf, -1))

/-- Embedding of `AIService.getBestMove`. -/
def getBestMove (board : List String) (difficulty : Difficulty) : Int :=
  (minimax board (difficultyDepths difficulty) true).2

/-- A board whose cells all hold the empty string, X, or O. -/
def validBoard (board : List String) : Prop :=
  ∀ c ∈ board, c = "" ∨ c = "X" ∨ c = "O"

instance (board : List String) : Decidable (validBoard board) := by
  unfold validBoard; infer_instance

/-- Cell `i` is an immediately winning move for O: the cell is free and
playing O there produces an O win. -/
def immediateWinO (board : List String) (i : Nat) : Prop :=
  cellAt board i = "" ∧ checkWinner (board.set i "O") = some "O"

instance (board : List String) (i : Nat) : Decidable (immediateWinO board i) := by
  unfold immediateWinO; infer_instance

theorem JNum.ltb_irrefl (a : JNum) : JNum.ltb a a = false := by
  cases a <;> simp [JNum.ltb]

theorem JNum.ltb_asymm {a b : JNum} (h1 : JNum.ltb a b = true)
    (h2 : JNum.ltb b a = true) : False := by
  cases a <;> cases b <;> simp [JNum.ltb] at h1 h2 <;> omega

theorem JNum.ltb_of_ltb_of_not_ltb {a b c : JNum} (h1 : JNum.ltb a b = true)
    (h2 : JNum.ltb c b = false) : JNum.ltb a c = true := by
  cases a <;> cases b <;> cases c <;> simp [JNum.ltb] at h1 h2 ⊢ <;> omega

theorem JNum.ltb_of_ltb_of_not_ltb_left {a b c : JNum} (h1 : JNum.ltb b a = true)
    (h2 : JNum.ltb b c = false) : JNum.ltb c a = true := by
  cases a <;> cases b <;> cases c <;> simp [JNum.ltb] at h1 h2 ⊢ <;> omega

/-- The comparison that evicts the running best in favour of a candidate. -/
def worseThan (isMax : Bool) (a b : JNum) : Bool :=
  if isMax then JNum.ltb a b else JNum.ltb b a

theorem worseThan_irrefl (isMax : Bool) (a : JNum) : worseThan isMax a a = false := by
  cases isMax <;> simp [worseThan, JNum.ltb_irrefl]

theorem worseThan_asymm {isMax : Bool} {a b : JNum}
    (h1 : worseThan isMax a b = true) (h2 : worseThan isMax b a = true) : False := by
  cases isMax <;> simp [worseThan] at h1 h2 <;> exact JNum.ltb_asymm h1 h2

theorem worseThan_of_worseThan_of_not {isMax : Bool} {a b c : JNum}
    (h1 : worseThan isMax a b = true) (h2 : worseThan isMax c b = false) :
    worseThan isMax a c = true := by
  cases isMax <;> simp [worseThan] at h1 h2 ⊢
  · exact JNum.ltb_of_ltb_of_not_ltb_left h1 h2
  · exact JNum.ltb_of_ltb_of_not_ltb h1 h2

theorem selStep_eq (isMax : Bool) (f : Nat → JNum) (best : JNum × Int) (move : Nat) :
    selStep isMax f best move =
      if worseThan isMax best.1 (f move) then (f move, (move : Int)) else best := rfl

/-- Outcome of the minimax move loop over any move list: the result is the
seed or the score/index of one of the moves; it is never worse than the
seed; and no move's score beats it. -/
theorem selFold_spec (isMax : Bool) (f : Nat → JNum) :
    ∀ (moves : List Nat) (init : JNum × Int),
      (moves.foldl (selStep isMax f) init = init ∨
        ∃ m ∈ moves, moves.foldl (selStep isMax f) init = (f m, (m : Int))) ∧
      worseThan isMax (moves.foldl (selStep isMax f) init).1 init.1 = false ∧
      (∀ m ∈ moves, worseThan isMax (moves.foldl (selStep isMax f) init).1 (f m) = false)
  | [], init => ⟨Or.inl rfl, worseThan_irrefl isMax init.1, by simp⟩
  | mv :: moves, init => by
      rw [List.foldl_cons, selStep_eq]
      by_cases htake : worseThan isMax init.1 (f mv) = true
      · rw [if_pos htake]
        obtain ⟨hcase, hseed, hall⟩ := selFold_spec isMax f moves (f mv, (mv : Int))
        refine ⟨?_, ?_, ?_⟩
        · rcases hcase with h | ⟨m, hm, h⟩
          · exact Or.inr ⟨mv, by simp, h⟩
          · exact Or.inr ⟨m, by simp [hm], h⟩
        · rcases hw : worseThan isMax
              ((moves.foldl (selStep isMax f) (f mv, (mv : Int))).1) init.1 with _ | _
          · rfl
          · exact absurd (worseThan_of_worseThan_of_not htake hseed)
              (fun hcontra => worseThan_asymm hw hcontra)
        · intro m hm
          rcases List.mem_cons.mp hm with rfl | hm2
          · exact hseed
          · exact hall m hm2
      · rw [if_neg htake]
        obtain ⟨hcase, hseed, hall⟩ := selFold_spec isMax f moves init
        have htk : worseThan isMax init.1 (f mv) = false := by
          rcases h : worseThan isMax init.1 (f mv) with _ | _
          · rfl
          · exact absurd h htake
        refine ⟨?_, hseed, ?_⟩
        · rcases hcase with h | ⟨m, hm, h⟩
          · exact Or.inl h
          · exact Or.inr ⟨m, by simp [hm], h⟩
        · intro m hm
          rcases List.mem_cons.mp hm with rfl | hm2
          · rcases hw : worseThan isMax
                ((moves.foldl (selStep isMax f) init).1) (f m) with _ | _
            · rfl
            · have hcontra := worseThan_of_worseThan_of_not hw htk
              rw [hseed] at hcontra
              exact nomatch hcontra
          · exact hall m hm2

theorem cellAt_eq_getElem (b : List String) (i : Nat) (h : i < b.length) :
    cellAt b i = b.get ⟨i, h⟩ := by
  unfold cellAt
  rw [List.getD_eq_getElem?_getD, List.getElem?_eq_getElem h]
  rfl

theorem cellAt_empty_or_mem (b : List String) (i : Nat) :
    cellAt b i = "" ∨ cellAt b i ∈ b := by
  unfold cellAt
  rw [List.getD_eq_getElem?_getD]
  rcases h : b[i]? with _ | c
  · exact Or.inl rfl
  · right
    simp only [Option.getD_some]
    rcases List.getElem?_eq_some_iff.mp h with ⟨hl, rfl⟩
    exact List.getElem_mem hl

theorem checkWinner_valid (b : List String) (hv : validBoard b) :
    checkWinner b = none ∨ checkWinner b = some "X" ∨ checkWinner b = some "O" := by
  rcases hw : checkWinner b with _ | s
  · exact Or.inl rfl
  · unfold checkWinner at hw
    rcases hf : winningLines.find? (lineWins b) with _ | l
    · rw [hf] at hw
      exact nomatch hw
    · rw [hf, Option.map_some'] at hw
      have hcell : cellAt b l.1 = s := Option.some.inj hw
      have hlw := List.find?_some hf
      rw [lineWins_iff_filled] at hlw
      have hne : cellAt b l.1 ≠ "" := hlw.1
      rcases cellAt_empty_or_mem b l.1 with h | h
      · exact absurd h hne
      · rcases hv _ h with h1 | h1 | h1
        · exact absurd h1 hne
        · exact Or.inr (Or.inl (by rw [← hcell, h1]))
        · exact Or.inr (Or.inr (by rw [← hcell, h1]))

theorem validBoard_set (b : List String) (hv : validBoard b) (i : Nat) (s : String)
    (hs : s = "X" ∨ s = "O") : validBoard (b.set i s) := by
  intro c hc
  rcases List.mem_or_eq_of_mem_set hc with h | h
  · exact hv c h
  · subst h
    rcases hs with h | h
    · exact Or.inr (Or.inl h)
    · exact Or.inr (Or.inr h)

theorem mem_getAvailableMoves (b : List String) (i : Nat) :
    i ∈ getAvailableMoves b ↔ b[i]? = some "" := by
  unfold getAvailableMoves
  rw [List.mem_filterMap]
  constructor
  · rintro ⟨⟨j, c⟩, hmem, hif⟩
    rw [List.mem_enum_iff_getElem?] at hmem
    by_cases hc : (c == "") = true
    · rw [if_pos hc] at hif
      have hj : j = i := Option.some.inj hif
      subst hj
      rw [beq_iff_eq] at hc
      subst hc
      exact hmem
    · rw [if_neg hc] at hif
      exact nomatch hif
  · intro h
    exact ⟨(i, ""), by rw [List.mem_enum_iff_getElem?]; exact h, by simp⟩

theorem avail_nonempty (b : List String) (hw : checkWinner b = none)
    (hd : isDraw b = false) : ∃ i, i ∈ getAvailableMoves b := by
  have hall : (b.all fun c => c != "") = false := by
    rcases h : (b.all fun c => c != "") with _ | _
    · rfl
    · exfalso
      unfold isDraw at hd
      rw [h, hw] at hd
      exact nomatch hd
  obtain ⟨c, hcmem, hcne⟩ := List.all_eq_false.mp hall
  have hc : c = "" := by simpa using hcne
  subst hc
  obtain ⟨j, hj⟩ := List.mem_iff_getElem?.mp hcmem
  exact ⟨j, (mem_getAvailableMoves b j).mpr hj⟩

theorem minimax_ten_of_winner (b : List String) (hw : checkWinner b = some "O") :
    ∀ (d : Nat) (isMax : Bool), (minimax b d isMax).1 = .num 10
  | 0, isMax => by simp [minimax, hw]
  | d + 1, isMax => by simp [minimax, hw]

theorem minimax_score_bound :
    ∀ (d : Nat) (b : List String), validBoard b → ∀ isMax : Bool,
      ∃ s : Int, (minimax b d isMax).1 = .num s ∧ -10 ≤ s ∧ s ≤ 10
  | 0, b, _, isMax => by
      simp only [minimax]
      by_cases h1 : (checkWinner b == some "O") = true
      · rw [if_pos h1]
        exact ⟨10, rfl, by omega, by omega⟩
      · rw [if_neg h1]
        by_cases h2 : (checkWinner b == some "X") = true
        · rw [if_pos h2]
          exact ⟨-10, rfl, by omega, by omega⟩
        · rw [if_neg h2]
          exact ⟨0, rfl, by omega, by omega⟩
  | d + 1, b, hv, isMax => by
      simp only [minimax]
      by_cases h1 : (checkWinner b == some "O") = true
      · rw [if_pos h1]
        exact ⟨10, rfl, by omega, by omega⟩
      rw [if_neg h1]
      by_cases h2 : (checkWinner b == some "X") = true
      · rw [if_pos h2]
        exact ⟨-10, rfl, by omega, by omega⟩
      rw [if_neg h2]
      by_cases h3 : isDraw b = true
      · rw [if_pos h3]
        exact ⟨0, rfl, by omega, by omega⟩
      rw [if_neg h3]
      have hw : checkWinner b = none := by
        rcases checkWinner_valid b hv with h | h | h
        · exact h
        · exact absurd (by rw [h]; rfl) h2
        · exact absurd (by rw [h]; rfl) h1
      have hd : isDraw b = false := by
        rcases h : isDraw b with _ | _
        · rfl
        · exact absurd h h3
      obtain ⟨i, hi⟩ := avail_nonempty b hw hd
      obtain ⟨hcase, hseed, hall⟩ := selFold_spec isMax
        (fun move => (minimax (b.set move (if isMax then "O" else "X")) d (!isMax)).1)
        (getAvailableMoves b) (if isMax then (.negInf, -1) else (.posInf, -1))
      rcases hcase with hinit | ⟨m, hm, hres⟩
      · exfalso
        have hthis := hall i hi
        rw [hinit] at hthis
        cases isMax
        · obtain ⟨si, hsi, -, -⟩ :=
            minimax_score_bound d (b.set i "X")
              (validBoard_set b hv i "X" (Or.inl rfl)) true
          simp [worseThan, JNum.ltb, hsi] at hthis
        · obtain ⟨si, hsi, -, -⟩ :=
            minimax_score_bound d (b.set i "O")
              (validBoard_set b hv i "O" (Or.inr rfl)) false
          simp [worseThan, JNum.ltb, hsi] at hthis
      · obtain ⟨sm, hsm, hm1, hm2⟩ :=
          minimax_score_bound d (b.set m (if isMax then "O" else "X"))
            (validBoard_set b hv m _ (by cases isMax <;> simp)) (!isMax)
        refine ⟨sm, ?_, hm1, hm2⟩
        rw [hres]
        exact hsm

theorem minimax_forced_win (b : List String) (d : Nat) (hv : validBoard b)
    (hw : checkWinner b = none) (hex : ∃ i, immediateWinO b i) :
    ∃ j : Nat, (minimax b (d + 1) true).2 = (j : Int) ∧ cellAt b j = "" ∧
      (minimax (b.set j "O") d false).1 = .num 10 := by
  obtain ⟨i, hemp, hwin⟩ := hex
  have hlen : i < b.length := by
    by_contra hle
    rw [List.set_eq_of_length_le (by omega)] at hwin
    rw [hw] at hwin
    exact nomatch hwin
  have hbi : b.get ⟨i, hlen⟩ = "" := by
    rw [← cellAt_eq_getElem b i hlen]
    exact hemp
  have hib : b[i]? = some "" := by
    rw [List.getElem?_eq_getElem hlen]
    exact congrArg some hbi
  have hiav : i ∈ getAvailableMoves b := (mem_getAvailableMoves b i).mpr hib
  have hmemb : "" ∈ b := by
    rw [← hbi]
    exact List.get_mem b i hlen
  have hnd : isDraw b = false := by
    rcases h : isDraw b with _ | _
    · rfl
    · exfalso
      unfold isDraw at h
      rw [Bool.and_eq_true, List.all_eq_true] at h
      have := h.1 "" hmemb
      simp at this
  have hbO : (checkWinner b == some "O") = false := by rw [hw]; rfl
  have hbX : (checkWinner b == some "X") = false := by rw [hw]; rfl
  have hmm : minimax b (d + 1) true =
      (getAvailableMoves b).foldl
        (selStep true (fun move => (minimax (b.set move "O") d false).1))
        (.negInf, -1) := by
    simp only [minimax]
    rw [hbO, hbX, hnd]
    rw [if_neg (by simp), if_neg (by simp), if_neg (by simp)]
    rfl
  obtain ⟨hcase, hseed, hall⟩ := selFold_spec true
    (fun move => (minimax (b.set move "O") d false).1)
    (getAvailableMoves b) (.negInf, -1)
  have h10 : (minimax (b.set i "O") d false).1 = .num 10 :=
    minimax_ten_of_winner (b.set i "O") hwin d false
  rcases hcase with hinit | ⟨m, hm, hres⟩
  · exfalso
    have hthis := hall i hiav
    rw [hinit] at hthis
    simp [worseThan, JNum.ltb, h10] at hthis
  · obtain ⟨sm, hsm, hm1, hm2⟩ :=
      minimax_score_bound d (b.set m "O") (validBoard_set b hv m "O" (Or.inr rfl)) false
    have hnle := hall i hiav
    rw [hres] at hnle
    have hsm10 : sm = 10 := by
      simp [worseThan, JNum.ltb, h10, hsm] at hnle
      omega
    have hmav := (mem_getAvailableMoves b m).mp hm
    obtain ⟨hmlen, hmempty⟩ := List.getElem?_eq_some_iff.mp hmav
    refine ⟨m, ?_, ?_, ?_⟩
    · rw [hmm, hres]
    · rw [cellAt_eq_getElem b m hmlen]
      exact hmempty
    · rw [hsm, hsm10]

/-- C5 counterexample: on the board `O X _ / O O X / _ X _` the cells 6 and 8
are immediately winning for O, yet at medium difficulty (depth 3, and equally
at hard, depth 5) `getBestMove` returns cell 2, which does not immediately
win: with two immediate wins available, the earlier empty cell 2 also scores
the forced-win value 10 within the lookahead, and the strict comparison keeps
the first cell reaching the best score. -/
theorem getBestMove_counterexample :
    validBoard ["O", "X", "", "O", "O", "X", "", "X", ""] ∧
    immediateWinO ["O", "X", "", "O", "O", "X", "", "X", ""] 6 ∧
    immediateWinO ["O", "X", "", "O", "O", "X", "", "X", ""] 8 ∧
    getBestMove ["O", "X", "", "O", "O", "X", "", "X", ""] .medium = 2 ∧
    getBestMove ["O", "X", "", "O", "O", "X", "", "X", ""] .hard = 2 ∧
    ¬ immediateWinO ["O", "X", "", "O", "O", "X", "", "X", ""] 2 :=
  ⟨by decide, by decide, by decide, by decide, by decide, by decide⟩

/-- C5 (amended): `getBestMove` searches at depth easy = 1, medium = 3,
hard = 5.  From any valid board with no winner yet in which a winning cell is
immediately available to O, the move minimax selects at any depth ≥ 1 is an
empty cell whose subtree scores the win value 10 — a move forcing a win
within the lookahead — and at easy (depth 1) the chosen cell itself
immediately wins for O.  (The original claim, that every difficulty returns
an immediately winning cell, fails at medium and hard: an earlier cell that
merely forces the win can be preferred when O holds a double threat — see the
counterexample.  The blocking-cell scenario is the special case where the
cell completing X's pair is O's winning cell.) -/
theorem getBestMove_depths_and_immediate_win :
    (difficultyDepths .easy = 1 ∧ difficultyDepths .medium = 3 ∧
      difficultyDepths .hard = 5 ∧
      ∀ (b : List String) (diff : Difficulty),
        getBestMove b diff = (minimax b (difficultyDepths diff) true).2) ∧
    (∀ (b : List String) (d : Nat), validBoard b → checkWinner b = none →
      (∃ i, immediateWinO b i) →
      ∃ j : Nat, (minimax b (d + 1) true).2 = (j : Int) ∧ cellAt b j = "" ∧
        (minimax (b.set j "O") d false).1 = .num 10) ∧
    (∀ b : List String, validBoard b → checkWinner b = none →
      (∃ i, immediateWinO b i) →
      ∃ j : Nat, getBestMove b .easy = (j : Int) ∧ immediateWinO b j) := by
  refine ⟨⟨rfl, rfl, rfl, fun b diff => rfl⟩,
    fun b d hv hw hex => minimax_forced_win b d hv hw hex, ?_⟩
  intro b hv hw hex
  obtain ⟨j, hj2, hjemp, hj10⟩ := minimax_forced_win b 0 hv hw hex
  refine ⟨j, hj2, hjemp, ?_⟩
  by_cases hO : (checkWinner (b.set j "O") == some "O") = true
  · rwa [beq_iff_eq] at hO
  · exfalso
    simp only [minimax] at hj10
    rw [if_neg hO] at hj10
    by_cases hX : (checkWinner (b.set j "O") == some "X") = true
    · rw [if_pos hX] at hj10
      have hj : JNum.num (-10) = JNum.num 10 := hj10
      injection hj with h
      omega
    · rw [if_neg hX] at hj10
      have hj : JNum.num 0 = JNum.num 10 := hj10
      injection hj with h
      omega

/-- C5 witness: on a board where O holds cells 0 and 1, easy-mode getBestMove
returns cell 2, the immediately winning cell. -/
theorem getBestMove_depths_and_immediate_win_witness :
    ∃ j : Nat,
      getBestMove ["O", "O", "", "", "", "", "", "", ""] .easy = (j : Int) ∧
      immediateWinO ["O", "O", "", "", "", "", "", "", ""] j :=
  getBestMove_depths_and_immediate_win.2.2 ["O", "O", "", "", "", "", "", "", ""]
    (by decide) (by decide) ⟨2, by decide⟩
